import Mathlib

/-!
Verification of the Felix-Alerts tail/alert engine.

The definitions below are a shallow embedding of the two tailing pipelines
`src/big_liquidation.py` and `src/stale_oracle_alerts.py`.  Text is modelled
as `List Char`; file contents as `Option (List Char)` (`none` = the file is
gone); Python `Decimal`/`float` arithmetic as `ℚ`; Python dicts keyed by
paths as functions `String → Option _`.
-/

/-- Characters on which Python `str.splitlines` splits a string. -/
def isBreak (c : Char) : Bool :=
  c = '\n' || c = '\r' || c = '\x0b' || c = '\x0c' ||
  c = '\x1c' || c = '\x1d' || c = '\x1e' || c = '\x85' ||
  c = '\u2028' || c = '\u2029'

/-- Prepend a character to the first line of a split, opening a fresh line
when there is none. -/
def consHead (c : Char) : List (List Char) → List (List Char)
  | [] => [[c]]
  | l :: ls => (c :: l) :: ls

/-- Embedding of Python `str.splitlines` (no `keepends`): split on every
line-break character, treating a `"\r\n"` pair as a single terminator; a
trailing fragment with no terminator becomes the last element. -/
def pySplitlines : List Char → List (List Char)
  | [] => []
  | c :: rest =>
    if isBreak c then
      [] :: pySplitlines (if c = '\r' && rest.head? = some '\n' then rest.tail else rest)
    else consHead c (pySplitlines rest)
termination_by s => s.length
decreasing_by
  · simp only [List.length_cons]
    split
    · cases rest
      · simp [List.tail]
      · simp [List.tail]; omega
    · omega
  · simp

/-- Embedding of the code's `data.endswith(("\n", "\r"))` test. -/
def endsWithTerm (s : List Char) : Bool :=
  match s.getLast? with
  | some c => c = '\n' || c = '\r'
  | none => false

/-- A string free of line-break characters. -/
def breakFree (s : List Char) : Bool :=
  s.all fun c => !isBreak c

/-- One pass of the per-path line reconstruction in `_read_new_lines`
(lines 228-241 of `big_liquidation.py`, lines 191-202 of
`stale_oracle_alerts.py`): prepend the leftover buffer to the chunk, split
into lines, and retain a trailing unterminated fragment as the new buffer.
Returns (new buffer, yielded complete lines). -/
def reconStep (buf chunk : List Char) : List Char × List (List Char) :=
  let data := buf ++ chunk
  if data.isEmpty then (buf, [])
  else
    let lines := pySplitlines data
    if endsWithTerm data then ([], lines)
    else
      match lines.getLast? with
      | none => (data, [])
      | some l => (l, lines.dropLast)

/-- Feeding a sequence of chunks through the reconstructor, carrying the
leftover buffer from one read to the next. -/
def reconRun (buf : List Char) : List (List Char) → List Char × List (List Char)
  | [] => (buf, [])
  | c :: cs =>
    let p := reconStep buf c
    let q := reconRun p.1 cs
    (q.1, p.2 ++ q.2)

/-- Reference splitter at `'\n'` only: returns (complete lines, trailing
fragment after the last newline).  Used to relate different chunkings of a
newline-terminated stream. -/
def splitNl : List Char → List (List Char) × List Char
  | [] => ([], [])
  | c :: rest =>
    let p := splitNl rest
    if c = '\n' then ([] :: p.1, p.2)
    else
      match p.1 with
      | [] => ([], c :: p.2)
      | l :: ls => ((c :: l) :: ls, p.2)

/-- A stream whose only line-break characters are `'\n'`. -/
def lfOnly (s : List Char) : Bool :=
  s.all fun c => !isBreak c || c = '\n'

example : pySplitlines "a\r\nb\n".toList = ["a".toList, "b".toList] := by
  simp [pySplitlines, consHead, isBreak]

example : pySplitlines "a\n\n".toList = ["a".toList, []] := by
  simp [pySplitlines, consHead, isBreak]

example : splitNl "a\nb".toList = (["a".toList], "b".toList) := by decide

example : reconStep [] "a\r".toList = ([], ["a".toList]) := by
  simp [reconStep, pySplitlines, consHead, isBreak, endsWithTerm]

example :
    reconRun [] ["a\r".toList, "\nb\n".toList] = ([], ["a".toList, [], "b".toList]) := by
  simp [reconRun, reconStep, pySplitlines, consHead, isBreak, endsWithTerm]

example :
    reconRun [] ["a\r\nb\n".toList] = ([], ["a".toList, "b".toList]) := by
  simp [reconRun, reconStep, pySplitlines, consHead, isBreak, endsWithTerm]

theorem pySplitlines_cons_nobreak (c : Char) (t : List Char) (hb : isBreak c = false) :
    pySplitlines (c :: t) = consHead c (pySplitlines t) := by
  rw [pySplitlines, if_neg (by simp [hb])]

theorem pySplitlines_cons_lf (t : List Char) :
    pySplitlines ('\n' :: t) = [] :: pySplitlines t := by
  rw [pySplitlines, if_pos (by decide)]
  simp

theorem pySplitlines_ne_nil {s : List Char} (h : s ≠ []) : pySplitlines s ≠ [] := by
  match s with
  | c :: t =>
    rw [pySplitlines]
    split
    · simp
    · unfold consHead
      split <;> simp

theorem breakFree_of_mem_pySplitlines (s : List Char) :
    ∀ l ∈ pySplitlines s, breakFree l = true := by
  induction s using pySplitlines.induct with
  | case1 => simp [pySplitlines]
  | case2 c rest hbr ih =>
    intro l hl
    rw [pySplitlines, if_pos hbr] at hl
    rcases List.mem_cons.mp hl with h | h
    · simp [h, breakFree]
    · exact ih l h
  | case3 c rest hbr ih =>
    intro l hl
    rw [pySplitlines, if_neg hbr] at hl
    rcases hrec : pySplitlines rest with _ | ⟨l0, ls0⟩
    · rw [hrec] at hl
      unfold consHead at hl
      rcases List.mem_cons.mp hl with h | h
      · subst h
        simp [breakFree, Bool.not_eq_true] at hbr ⊢
        exact hbr
      · simp at h
    · rw [hrec] at hl
      unfold consHead at hl
      rcases List.mem_cons.mp hl with h | h
      · subst h
        have := ih l0 (by rw [hrec]; simp)
        simp [breakFree, Bool.not_eq_true, List.all_eq_true] at hbr this ⊢
        exact ⟨hbr, this⟩
      · exact ih l (by rw [hrec]; simp [h])

theorem splitNl_fst_nil : ∀ {s : List Char}, (splitNl s).1 = [] → (splitNl s).2 = s := by
  intro s
  induction s with
  | nil => intro _; rfl
  | cons c t ih =>
    intro h
    by_cases hc : c = '\n'
    · subst hc; simp [splitNl] at h
    · simp only [splitNl, hc, if_false] at h ⊢
      cases hp : (splitNl t).1 with
      | nil =>
        simp only [hp] at h ⊢
        simpa using ih hp
      | cons l ls => simp [hp] at h

theorem nl_not_mem_splitNl_frag (s : List Char) : '\n' ∉ (splitNl s).2 := by
  induction s with
  | nil => simp [splitNl]
  | cons c t ih =>
    by_cases hc : c = '\n'
    · subst hc; simpa [splitNl] using ih
    · simp only [splitNl, hc, if_false]
      cases hp : (splitNl t).1 with
      | nil =>
        simp only [hp]
        intro hmem
        rcases List.mem_cons.mp hmem with h | h
        · exact hc h.symm
        · exact ih h
      | cons l ls => simpa [hp] using ih

theorem mem_of_mem_splitNl_frag {c : Char} {s : List Char}
    (h : c ∈ (splitNl s).2) : c ∈ s := by
  induction s with
  | nil => simp [splitNl] at h
  | cons d t ih =>
    by_cases hd : d = '\n'
    · subst hd
      simp only [splitNl] at h
      exact List.mem_cons_of_mem _ (ih h)
    · simp only [splitNl, hd, if_false] at h
      cases hp : (splitNl t).1 with
      | nil =>
        rw [hp] at h
        rcases List.mem_cons.mp h with h1 | h1
        · simp [h1]
        · exact List.mem_cons_of_mem _ (ih h1)
      | cons l ls =>
        rw [hp] at h
        exact List.mem_cons_of_mem _ (ih h)

theorem splitNl_of_no_nl : ∀ {s : List Char}, '\n' ∉ s → splitNl s = ([], s) := by
  intro s
  induction s with
  | nil => intro _; rfl
  | cons c t ih =>
    intro h
    have hc : c ≠ '\n' := fun hh => h (by simp [hh])
    have ht : '\n' ∉ t := fun hh => h (List.mem_cons_of_mem _ hh)
    simp only [splitNl, hc, if_false, ih ht]

theorem splitNl_cons_nl (t : List Char) :
    splitNl ('\n' :: t) = ([] :: (splitNl t).1, (splitNl t).2) := by
  simp [splitNl]

theorem splitNl_cons_other {c : Char} (t : List Char) (hc : c ≠ '\n') :
    splitNl (c :: t) =
      (match (splitNl t).1 with
       | [] => ([], c :: (splitNl t).2)
       | l :: ls => ((c :: l) :: ls, (splitNl t).2)) := by
  simp [splitNl, hc]

theorem splitNl_append (xs ys : List Char) :
    splitNl (xs ++ ys) =
      ((splitNl xs).1 ++ (splitNl ((splitNl xs).2 ++ ys)).1,
       (splitNl ((splitNl xs).2 ++ ys)).2) := by
  induction xs with
  | nil => simp [splitNl]
  | cons c t ih =>
    by_cases hc : c = '\n'
    · subst hc
      rw [List.cons_append, splitNl_cons_nl (t ++ ys), splitNl_cons_nl t, ih]
      simp
    · cases hp : (splitNl t).1 with
      | nil =>
        have hfrag := splitNl_fst_nil hp
        rw [splitNl_cons_other t hc, hp, hfrag]
        simp
      | cons l ls =>
        rw [List.cons_append, splitNl_cons_other (t ++ ys) hc,
          splitNl_cons_other t hc, ih, hp]
        simp

theorem lfOnly_cons {c : Char} {t : List Char} :
    lfOnly (c :: t) = ((!isBreak c || c = '\n') && lfOnly t) := by
  simp [lfOnly]

theorem lfOnly_append {a b : List Char} :
    lfOnly (a ++ b) = (lfOnly a && lfOnly b) := by
  simp [lfOnly, List.all_append]

theorem no_cr_of_lfOnly {s : List Char} (h : lfOnly s = true) : '\r' ∉ s := by
  intro hm
  rw [lfOnly, List.all_eq_true] at h
  exact absurd (h _ hm) (by decide)

theorem endsWithTerm_cases {s : List Char} (hs : s ≠ []) (h : endsWithTerm s = true) :
    s.getLast hs = '\n' ∨ s.getLast hs = '\r' := by
  unfold endsWithTerm at h
  rw [List.getLast?_eq_getLast_of_ne_nil hs] at h
  simpa using h

theorem endsWithTerm_iff_frag_nil :
    ∀ {s : List Char}, lfOnly s = true → s ≠ [] →
      (endsWithTerm s = true ↔ (splitNl s).2 = []) := by
  intro s
  induction s with
  | nil => intro _ h; exact absurd rfl h
  | cons c t ih =>
    intro hlf _
    rw [lfOnly_cons, Bool.and_eq_true] at hlf
    obtain ⟨hc0, ht⟩ := hlf
    cases t with
    | nil =>
      by_cases hc : c = '\n'
      · subst hc
        constructor
        · intro _; simp [splitNl]
        · intro _; decide
      · have hcr : c ≠ '\r' := by
          intro h; subst h; exact absurd hc0 (by decide)
        constructor
        · intro h
          exfalso
          simp [endsWithTerm, List.getLast?] at h
          rcases h with h | h
          · exact hc h
          · exact hcr h
        · intro h
          rw [splitNl_cons_other [] hc] at h
          simp [splitNl] at h
    | cons d u =>
      have hterm : endsWithTerm (c :: d :: u) = endsWithTerm (d :: u) := by
        simp [endsWithTerm, List.getLast?_cons_cons]
      rw [hterm]
      by_cases hc : c = '\n'
      · subst hc
        rw [splitNl_cons_nl]
        exact ih ht (by simp)
      · cases hp : (splitNl (d :: u)).1 with
        | nil =>
          rw [splitNl_cons_other _ hc, hp]
          constructor
          · intro hterm2
            exfalso
            have hg := endsWithTerm_cases (by simp) hterm2
            have hmem : (d :: u).getLast (by simp) ∈ d :: u := List.getLast_mem _
            rcases hg with hg | hg
            · have hfrag := splitNl_fst_nil hp
              have hnl := nl_not_mem_splitNl_frag (d :: u)
              rw [hfrag] at hnl
              rw [hg] at hmem
              exact hnl hmem
            · rw [hg] at hmem
              exact no_cr_of_lfOnly ht hmem
          · intro h
            simp at h
        | cons l ls =>
          rw [splitNl_cons_other _ hc, hp]
          exact ih ht (by simp)

theorem pySplitlines_eq_splitNl :
    ∀ {s : List Char}, lfOnly s = true →
      pySplitlines s =
        (splitNl s).1 ++ (if (splitNl s).2 = [] then [] else [(splitNl s).2]) := by
  intro s
  induction s with
  | nil => intro _; simp [pySplitlines, splitNl]
  | cons c t ih =>
    intro hlf
    rw [lfOnly_cons, Bool.and_eq_true] at hlf
    obtain ⟨hc0, ht⟩ := hlf
    by_cases hc : c = '\n'
    · subst hc
      rw [pySplitlines_cons_lf, splitNl_cons_nl, ih ht]
      simp
    · have hb : isBreak c = false := by
        rcases (Bool.or_eq_true _ _).mp hc0 with h | h
        · simpa using h
        · exact absurd (by simpa using h) hc
      rw [pySplitlines_cons_nobreak c t hb, ih ht]
      cases hp : (splitNl t).1 with
      | nil =>
        have hfrag := splitNl_fst_nil hp
        rw [splitNl_cons_other t hc, hp, hfrag]
        cases t with
        | nil => simp [consHead]
        | cons d u => simp [consHead]
      | cons l ls =>
        rw [splitNl_cons_other t hc, hp]
        simp [consHead]

theorem lfOnly_of_breakFree {s : List Char} (h : breakFree s = true) :
    lfOnly s = true := by
  rw [breakFree, List.all_eq_true] at h
  rw [lfOnly, List.all_eq_true]
  intro c hc
  simp [h c hc]

theorem splitNl_of_breakFree {s : List Char} (h : breakFree s = true) :
    splitNl s = ([], s) := by
  apply splitNl_of_no_nl
  intro hm
  rw [breakFree, List.all_eq_true] at h
  exact absurd (h _ hm) (by decide)

theorem breakFree_splitNl_frag {s : List Char} (h : lfOnly s = true) :
    breakFree (splitNl s).2 = true := by
  rw [breakFree, List.all_eq_true]
  intro c hc
  have hcs := mem_of_mem_splitNl_frag hc
  rw [lfOnly, List.all_eq_true] at h
  rcases (Bool.or_eq_true _ _).mp (h c hcs) with h3 | h3
  · exact h3
  · exfalso
    have hcnl : c = '\n' := by simpa using h3
    subst hcnl
    exact nl_not_mem_splitNl_frag s hc

theorem reconStep_eq_splitNl {buf chunk : List Char}
    (h : lfOnly (buf ++ chunk) = true) :
    reconStep buf chunk = ((splitNl (buf ++ chunk)).2, (splitNl (buf ++ chunk)).1) := by
  by_cases hd : buf ++ chunk = []
  · obtain ⟨hbuf, hch⟩ := List.append_eq_nil.mp hd
    subst hbuf; subst hch
    simp [reconStep, splitNl]
  · by_cases hterm : endsWithTerm (buf ++ chunk) = true
    · have hfrag : (splitNl (buf ++ chunk)).2 = [] :=
        (endsWithTerm_iff_frag_nil h hd).mp hterm
      simp only [reconStep]
      rw [if_neg (by simpa [List.isEmpty_iff] using hd), if_pos hterm,
        pySplitlines_eq_splitNl h, hfrag]
      simp
    · have hfrag : (splitNl (buf ++ chunk)).2 ≠ [] := fun hf =>
        hterm ((endsWithTerm_iff_frag_nil h hd).mpr hf)
      simp only [reconStep]
      rw [if_neg (by simpa [List.isEmpty_iff] using hd), if_neg hterm,
        pySplitlines_eq_splitNl h, if_neg hfrag, List.getLast?_concat,
        List.dropLast_concat]

theorem reconRun_eq_splitNl :
    ∀ (cs : List (List Char)) (buf : List Char), breakFree buf = true →
      lfOnly cs.flatten = true →
      reconRun buf cs =
        ((splitNl (buf ++ cs.flatten)).2, (splitNl (buf ++ cs.flatten)).1) := by
  intro cs
  induction cs with
  | nil =>
    intro buf hb _
    simp [reconRun, splitNl_of_breakFree hb]
  | cons c cs ih =>
    intro buf hb hlf
    rw [List.flatten_cons, lfOnly_append, Bool.and_eq_true] at hlf
    obtain ⟨hc, hcs⟩ := hlf
    have hbc : lfOnly (buf ++ c) = true := by
      rw [lfOnly_append, lfOnly_of_breakFree hb, hc]
      rfl
    have hstep := reconStep_eq_splitNl hbc
    have hb1 : breakFree (splitNl (buf ++ c)).2 = true := breakFree_splitNl_frag hbc
    have ihh := ih ((splitNl (buf ++ c)).2) hb1 hcs
    have happ := splitNl_append (buf ++ c) cs.flatten
    simp only [reconRun, hstep, ihh]
    rw [List.flatten_cons, ← List.append_assoc, happ]

/-- Claim C1, counterexample: the reconstructor is NOT chunking-invariant for
every byte stream.  The stream `"a\r\nb\n"` chunked as `["a\r", "\nb\n"]`
yields an extra empty line compared to delivering it in one chunk, because
`data.endswith(("\n", "\r"))` treats the `"\r"` of a split CRLF pair as a
terminator and the following `"\n"` then opens an empty line. -/
theorem C1_chunking_counterexample :
    ["a\r".toList, "\nb\n".toList].flatten = ["a\r\nb\n".toList].flatten ∧
    (reconRun [] ["a\r".toList, "\nb\n".toList]).2 ≠
      (reconRun [] ["a\r\nb\n".toList]).2 := by
  constructor
  · decide
  · simp [reconRun, reconStep, pySplitlines, consHead, isBreak, endsWithTerm]

/-- Claim C1 (amended): for every total byte stream whose only line-break
characters are `'\n'`, every chunking of the stream fed through the line
reconstructor (with the leftover buffer carried from read to read) yields
the same ordered sequence of complete lines. -/
theorem C1_chunking_invariance (cs1 cs2 : List (List Char))
    (hlf : lfOnly cs1.flatten = true) (heq : cs1.flatten = cs2.flatten) :
    (reconRun [] cs1).2 = (reconRun [] cs2).2 := by
  have h1 := reconRun_eq_splitNl cs1 [] rfl hlf
  have h2 := reconRun_eq_splitNl cs2 [] rfl (heq ▸ hlf)
  rw [h1, h2, heq]

/-- Claim C1, witness: two concrete chunkings of the stream `"x\ny"` yield
the same complete lines. -/
theorem C1_chunking_invariance_witness :
    lfOnly ["x\n".toList, "y".toList].flatten = true ∧
    ["x\n".toList, "y".toList].flatten = ["x".toList, "\ny".toList].flatten ∧
    (reconRun [] ["x\n".toList, "y".toList]).2 =
      (reconRun [] ["x".toList, "\ny".toList]).2 :=
  ⟨by decide, by decide,
    C1_chunking_invariance _ _ (by decide) (by decide)⟩

theorem mem_of_getLast?_eq_some {α : Type _} {l : List α} {x : α}
    (h : l.getLast? = some x) : x ∈ l := by
  obtain ⟨hne, hx⟩ :=
    List.mem_getLast?_eq_getLast (show x ∈ l.getLast? from by simp [Option.mem_def, h])
  rw [hx]
  exact List.getLast_mem hne

theorem breakFree_reconStep_buffer (buf chunk : List Char) :
    breakFree (reconStep buf chunk).1 = true := by
  by_cases hd : buf ++ chunk = []
  · obtain ⟨hbuf, hch⟩ := List.append_eq_nil.mp hd
    subst hbuf; subst hch
    simp [reconStep, breakFree]
  · simp only [reconStep]
    rw [if_neg (by simpa [List.isEmpty_iff] using hd)]
    by_cases hterm : endsWithTerm (buf ++ chunk) = true
    · rw [if_pos hterm]
      rfl
    · rw [if_neg hterm]
      cases hg : (pySplitlines (buf ++ chunk)).getLast? with
      | none =>
        exfalso
        exact pySplitlines_ne_nil hd (List.getLast?_eq_none_iff.mp hg)
      | some l =>
        exact breakFree_of_mem_pySplitlines _ l (mem_of_getLast?_eq_some hg)

theorem endsWithTerm_of_breakFree {s : List Char} (hb : breakFree s = true) :
    endsWithTerm s = false := by
  cases hg : s.getLast? with
  | none => simp [endsWithTerm, hg]
  | some c =>
    have hmem := mem_of_getLast?_eq_some hg
    rw [breakFree, List.all_eq_true] at hb
    have hc := hb c hmem
    unfold endsWithTerm
    rw [hg]
    have h1 : c ≠ '\n' := fun h => by subst h; exact absurd hc (by decide)
    have h2 : c ≠ '\r' := fun h => by subst h; exact absurd hc (by decide)
    simp [h1, h2]

theorem pySplitlines_of_breakFree :
    ∀ {s : List Char}, breakFree s = true → s ≠ [] → pySplitlines s = [s] := by
  intro s
  induction s with
  | nil => intro _ hs; exact absurd rfl hs
  | cons c t ih =>
    intro hb _
    rw [breakFree, List.all_cons, Bool.and_eq_true] at hb
    obtain ⟨hc, ht⟩ := hb
    have hcb : isBreak c = false := by simpa using hc
    have htb : breakFree t = true := by rw [breakFree]; exact ht
    rw [pySplitlines_cons_nobreak c t hcb]
    cases t with
    | nil => simp [pySplitlines, consHead]
    | cons d u =>
      rw [ih htb (by simp)]
      simp [consHead]

theorem reconStep_nil_chunk {buf : List Char} (hb : breakFree buf = true) :
    reconStep buf [] = (buf, []) := by
  by_cases hnil : buf = []
  · subst hnil; rfl
  · simp only [reconStep, List.append_nil]
    rw [if_neg (by simpa [List.isEmpty_iff] using hnil)]
    rw [endsWithTerm_of_breakFree hb]
    rw [if_neg (by simp)]
    rw [pySplitlines_of_breakFree hb hnil]
    simp

/-- Per-path tail state kept by both `TailHandler`s: the stored read offset
and the partial-line buffer (`self.offsets[p]`, `self.buffers[p]`). -/
structure WatchedFile where
  offset : ℕ
  buffer : List Char
deriving DecidableEq

/-- Embedding of `_read_new_lines` for one path (lines 206-241 of
`big_liquidation.py`): look at the current file size; if it is smaller than
the stored offset, reset the read position to 0 (rotation/truncation);
read from the position to end of file, store the new offset, and feed the
chunk through the line reconstructor.  `none` content models
`FileNotFoundError` (state untouched, no lines). -/
def readNewLines (wf : WatchedFile) (content : Option (List Char)) :
    WatchedFile × List (List Char) :=
  match content with
  | none => (wf, [])
  | some c =>
    let lastOff := if c.length < wf.offset then 0 else wf.offset
    let chunk := c.drop lastOff
    let p := reconStep wf.buffer chunk
    (⟨c.length, p.1⟩, p.2)

/-- Claim C4: the stored offset never decreases across reads, except that
when the observed size is below the stored offset the read restarts from 0
(the whole content becomes the chunk), stores the non-negative size as the
new offset, and processes lines normally through the reconstructor. -/
theorem C4_offset_monotone (wf : WatchedFile) (c : List Char) :
    (wf.offset ≤ c.length → wf.offset ≤ (readNewLines wf (some c)).1.offset) ∧
    (c.length < wf.offset →
      readNewLines wf (some c) =
        (⟨c.length, (reconStep wf.buffer c).1⟩, (reconStep wf.buffer c).2)) ∧
    (readNewLines wf none).1.offset = wf.offset := by
  refine ⟨fun h => ?_, fun h => ?_, rfl⟩
  · simpa [readNewLines] using h
  · simp [readNewLines, if_pos h]

/-- Claim C4, witness: a concrete growing read keeps the offset, and a
concrete truncated read restarts from 0 and reads the whole content. -/
theorem C4_offset_monotone_witness :
    ((⟨1, []⟩ : WatchedFile).offset ≤ "a\nb".toList.length ∧
      (⟨1, []⟩ : WatchedFile).offset ≤
        (readNewLines ⟨1, []⟩ (some "a\nb".toList)).1.offset) ∧
    ("ab".toList.length < (⟨5, []⟩ : WatchedFile).offset ∧
      readNewLines ⟨5, []⟩ (some "ab".toList) =
        (⟨"ab".toList.length, (reconStep [] "ab".toList).1⟩,
          (reconStep [] "ab".toList).2)) :=
  ⟨⟨by decide, (C4_offset_monotone ⟨1, []⟩ "a\nb".toList).1 (by decide)⟩,
    ⟨by decide, (C4_offset_monotone ⟨5, []⟩ "ab".toList).2.1 (by decide)⟩⟩

/-- Claim C7: re-delivering a Modified event for a path when no new bytes
were written since the last read yields zero additional lines and leaves
the per-path state unchanged. -/
theorem C7_modified_idempotent (wf : WatchedFile) (content : Option (List Char)) :
    readNewLines (readNewLines wf content).1 content =
      ((readNewLines wf content).1, []) := by
  cases content with
  | none => rfl
  | some c =>
    simp only [readNewLines]
    rw [if_neg (lt_irrefl _), List.drop_length,
      reconStep_nil_chunk (breakFree_reconStep_buffer _ _)]

/-- Paths of watched files. -/
abbrev FilePath := String

/-- The handler's per-path table, merging the `offsets` and `buffers`
dicts: `none` means the path is unknown to the handler. -/
def TailTable := FilePath → Option WatchedFile

/-- Embedding of `TailHandler.on_moved` (lines 319-326 of
`big_liquidation.py`): pop offset and buffer of the old path (defaulting to
0 and the empty buffer) and store them under the new path. -/
def on_moved (t : TailTable) (old new_ : FilePath) : TailTable :=
  let wf := (t old).getD ⟨0, []⟩
  fun p => if p = new_ then some wf else if p = old then none else t p

/-- Embedding of `TailHandler.on_modified` (lines 311-317): late-register an
unknown path at offset = current size with an empty buffer, then read the
new bytes of the path.  Returns the updated table and the yielded lines. -/
def on_modified (t : TailTable) (p : FilePath) (content : Option (List Char)) :
    TailTable × List (List Char) :=
  let t1 : TailTable :=
    if (t p).isSome then t
    else fun q => if q = p then some ⟨(content.getD []).length, []⟩ else t q
  let wf := (t1 p).getD ⟨0, []⟩
  let r := readNewLines wf content
  (fun q => if q = p then some r.1 else t1 q, r.2)

/-- The stale-oracle pipeline's move handling: the `TailHandler` of
`stale_oracle_alerts.py` (lines 149-239) defines no `on_moved`, so the
inherited watchdog handler does nothing and the table is unchanged. -/
def stale_on_moved (t : TailTable) (_old _new : FilePath) : TailTable := t

/-- Claim C6, counterexample: the claim is false for the stale-oracle
pipeline, whose handler inherits a no-op `on_moved`.  With path A
registered at offset 0, `MovedTo(A, B)` transfers nothing, so a subsequent
`Modified(B)` delivering the two appended bytes late-registers B at the
current size and yields zero lines, while without the rename the same
bytes delivered to A yield the line "x". -/
theorem C6_moved_counterexample :
    (on_modified (stale_on_moved
        (fun p => if p = "A" then some ⟨0, []⟩ else none) "A" "B")
      "B" (some ([] ++ "x\n".toList))).2 = [] ∧
    (on_modified (fun p => if p = "A" then some ⟨0, []⟩ else none)
      "A" (some ([] ++ "x\n".toList))).2 = ["x".toList] ∧
    (on_modified (stale_on_moved
        (fun p => if p = "A" then some ⟨0, []⟩ else none) "A" "B")
      "B" (some ([] ++ "x\n".toList))).2 ≠
      (on_modified (fun p => if p = "A" then some ⟨0, []⟩ else none)
        "A" (some ([] ++ "x\n".toList))).2 := by
  refine ⟨?_, ?_, ?_⟩ <;>
    simp [on_modified, stale_on_moved, readNewLines, reconStep, pySplitlines,
      consHead, isBreak, endsWithTerm]

/-- Claim C6 (amended): in the liquidation pipeline, whose `TailHandler`
defines `on_moved` (`big_liquidation.py` lines 319-326), handling
`MovedTo(A, B)` transfers the watched-file entry (offset and buffer) from
path A to path B, so a subsequent `Modified(B)` delivering the grown
content yields exactly the same lines (and the same per-path state at B)
as a `Modified(A)` with that content had A never been renamed; the
stale-oracle pipeline inherits a no-op `on_moved` and does not have this
property. -/
theorem C6_moved_preserves_state (t : TailTable) (a b : FilePath)
    (wf : WatchedFile) (base delta : List Char) (hreg : t a = some wf) :
    (on_moved t a b) b = some wf ∧
    (on_modified (on_moved t a b) b (some (base ++ delta))).2 =
      (on_modified t a (some (base ++ delta))).2 ∧
    ((on_modified (on_moved t a b) b (some (base ++ delta))).1 b =
      (on_modified t a (some (base ++ delta))).1 a) := by
  have hb : (on_moved t a b) b = some wf := by
    simp [on_moved, hreg]
  refine ⟨hb, ?_, ?_⟩
  · simp [on_modified, hb, hreg]
  · simp [on_modified, hb, hreg]

/-- Claim C6, witness: a concrete rename followed by an append yields the
same lines as appending without the rename. -/
theorem C6_moved_preserves_state_witness :
    (fun p => if p = "A" then some (⟨2, "x".toList⟩ : WatchedFile) else none) "A" =
      some (⟨2, "x".toList⟩ : WatchedFile) ∧
    (on_moved (fun p => if p = "A" then some ⟨2, "x".toList⟩ else none) "A" "B") "B" =
      some (⟨2, "x".toList⟩ : WatchedFile) ∧
    (on_modified (on_moved (fun p => if p = "A" then some ⟨2, "x".toList⟩ else none)
        "A" "B") "B" (some ("ab".toList ++ "c\n".toList))).2 =
      (on_modified (fun p => if p = "A" then some ⟨2, "x".toList⟩ else none)
        "A" (some ("ab".toList ++ "c\n".toList))).2 := by
  refine ⟨by decide, ?_, ?_⟩
  · exact (C6_moved_preserves_state _ "A" "B" ⟨2, "x".toList⟩ "ab".toList
      "c\n".toList (by decide)).1
  · exact (C6_moved_preserves_state _ "A" "B" ⟨2, "x".toList⟩ "ab".toList
      "c\n".toList (by decide)).2.1

/-- Whitespace characters removed by Python `str.strip()`. -/
def isPySpace (c : Char) : Bool :=
  c = ' ' || c = '\t' || c = '\n' || c = '\r' || c = '\x0b' || c = '\x0c'

/-- Embedding of Python `str.strip()`. -/
def pyStrip (s : List Char) : List Char :=
  ((s.dropWhile isPySpace).reverse.dropWhile isPySpace).reverse

/-- Test of `_process_path`: does the stripped line start like a JSON
object or array. -/
def startsJson (s : List Char) : Bool :=
  match s.head? with
  | some c => c = '\x7b' || c = '['
  | none => false

/-- Embedding of the per-line body of `_process_path` (lines 268-283 of
`big_liquidation.py`) restricted to its effect on the path's buffer: blank
lines and non-JSON-prefixed lines are skipped; a line whose JSON parse
fails is appended (stripped) to the buffer; `parseOk` abstracts
`json.loads` succeeding. -/
def processBuffer (parseOk : List Char → Bool) (buf : List Char)
    (ls : List (List Char)) : List Char :=
  ls.foldl (fun b line =>
    let s := pyStrip line
    if s.isEmpty then b
    else if !startsJson s then b
    else if parseOk s then b
    else b ++ s) buf

/-- One full Modified-event step for a path, tracking only the per-path
tail state: read the new bytes, then run the per-line processing, which may
grow the buffer on JSON parse failures. -/
def modifiedStep (parseOk : List Char → Bool) (wf : WatchedFile)
    (content : Option (List Char)) : WatchedFile :=
  let r := readNewLines wf content
  ⟨r.1.offset, processBuffer parseOk r.1.buffer r.2⟩

theorem mem_of_mem_pyStrip {c : Char} {s : List Char} (h : c ∈ pyStrip s) : c ∈ s := by
  unfold pyStrip at h
  rw [List.mem_reverse] at h
  have h1 := (List.dropWhile_sublist (l := (s.dropWhile isPySpace).reverse)
    (p := isPySpace)).mem h
  rw [List.mem_reverse] at h1
  exact (List.dropWhile_sublist (l := s) (p := isPySpace)).mem h1

theorem breakFree_append {a b : List Char} (ha : breakFree a = true)
    (hb : breakFree b = true) : breakFree (a ++ b) = true := by
  rw [breakFree, List.all_append]
  rw [breakFree] at ha hb
  simp [ha, hb]

theorem breakFree_pyStrip {s : List Char} (h : breakFree s = true) :
    breakFree (pyStrip s) = true := by
  rw [breakFree, List.all_eq_true] at h ⊢
  intro c hc
  exact h c (mem_of_mem_pyStrip hc)

theorem breakFree_reconStep_lines (buf chunk : List Char) :
    ∀ l ∈ (reconStep buf chunk).2, breakFree l = true := by
  intro l hl
  by_cases hd : buf ++ chunk = []
  · obtain ⟨hbuf, hch⟩ := List.append_eq_nil.mp hd
    subst hbuf; subst hch
    simp [reconStep] at hl
  · simp only [reconStep] at hl
    rw [if_neg (by simpa [List.isEmpty_iff] using hd)] at hl
    by_cases hterm : endsWithTerm (buf ++ chunk) = true
    · rw [if_pos hterm] at hl
      exact breakFree_of_mem_pySplitlines _ l hl
    · rw [if_neg hterm] at hl
      cases hg : (pySplitlines (buf ++ chunk)).getLast? with
      | none => rw [hg] at hl; simp at hl
      | some x =>
        rw [hg] at hl
        simp only at hl
        exact breakFree_of_mem_pySplitlines _ l (List.dropLast_sublist _ |>.mem hl)

theorem breakFree_processBuffer (parseOk : List Char → Bool) :
    ∀ (ls : List (List Char)) (buf : List Char), breakFree buf = true →
      (∀ l ∈ ls, breakFree l = true) →
      breakFree (processBuffer parseOk buf ls) = true := by
  intro ls
  induction ls with
  | nil => intro buf hb _; exact hb
  | cons l ls ih =>
    intro buf hb hall
    have hstep : breakFree
        (if (pyStrip l).isEmpty then buf
         else if !startsJson (pyStrip l) then buf
         else if parseOk (pyStrip l) then buf
         else buf ++ pyStrip l) = true := by
      have hl := breakFree_pyStrip (hall l (by simp))
      split
      · exact hb
      · split
        · exact hb
        · split
          · exact hb
          · exact breakFree_append hb hl
    have hrest : ∀ x ∈ ls, breakFree x = true := fun x hx => hall x (by simp [hx])
    simpa [processBuffer] using ih _ hstep hrest

/-- Claim C8: across one full Modified-event step the per-path buffer stays
free of line-break characters, i.e. it holds at most one incomplete,
non-newline-terminated line fragment and never multiple lines.  (Every
registration path of the handler initialises the buffer to the empty
string, which satisfies the invariant, so by induction it holds at every
point between event-handling steps.) -/
theorem C8_buffer_single_fragment (parseOk : List Char → Bool)
    (wf : WatchedFile) (content : Option (List Char))
    (h : breakFree wf.buffer = true) :
    breakFree (modifiedStep parseOk wf content).buffer = true := by
  unfold modifiedStep
  apply breakFree_processBuffer
  · cases content with
    | none => exact h
    | some c =>
      simp only [readNewLines]
      exact breakFree_reconStep_buffer _ _
  · cases content with
    | none => simp [readNewLines]
    | some c =>
      simp only [readNewLines]
      exact breakFree_reconStep_lines _ _

/-- Claim C8, witness: a concrete step from an empty buffer with a line
whose JSON parse fails keeps the buffer free of line terminators. -/
theorem C8_buffer_single_fragment_witness :
    breakFree (⟨0, []⟩ : WatchedFile).buffer = true ∧
    breakFree (modifiedStep (fun _ => false) ⟨0, []⟩
      (some ['\x7b', 'x', '\n', '\x7b', 'y'])).buffer = true :=
  ⟨by decide,
    C8_buffer_single_fragment (fun _ => false) ⟨0, []⟩
      (some ['\x7b', 'x', '\n', '\x7b', 'y']) (by decide)⟩

/-- Normalised liquidation event as consumed by `should_alert`
(`big_liquidation.py` lines 114-137); `px`/`sz` carry the `_to_decimal`
parse result of the raw field (`none` = field missing or unparseable),
`Decimal` arithmetic is embedded in `ℚ`. -/
structure LiqEvent where
  method : Option String
  px : Option ℚ
  sz : Option ℚ
deriving DecidableEq

/-- Embedding of Python `str.lower` as used on the method strings. -/
def lowerStr (s : String) : String := ⟨s.data.map Char.toLower⟩

/-- Embedding of `should_alert`: backstop methods always alert; market
methods alert iff both price and size parsed and price * size strictly
exceeds the configured USD threshold; other methods never alert.  Returns
(alert decision, alert kind). -/
def should_alert (thr : ℚ) (liq : LiqEvent) : Bool × Option String :=
  let method := lowerStr (liq.method.getD "")
  if method = "backstop" then (true, some "backstop")
  else if method = "market" then
    match liq.px, liq.sz with
    | some px, some sz => (decide (px * sz > thr), some "market")
    | _, _ => (false, none)
  else (false, none)

/-- Claim C5: for an event whose method is "market", the predicate alerts
iff both px and sz parsed as decimals and the notional px * sz strictly
exceeds the threshold; a missing or unparseable px or sz never alerts. -/
theorem C5_market_notional (thr : ℚ) (liq : LiqEvent)
    (hm : liq.method = some "market") :
    ((should_alert thr liq).1 = true ↔
      ∃ p s, liq.px = some p ∧ liq.sz = some s ∧ p * s > thr) ∧
    ((liq.px = none ∨ liq.sz = none) → (should_alert thr liq).1 = false) := by
  unfold should_alert
  rw [hm]
  rw [if_neg (by decide), if_pos (by decide)]
  obtain ⟨m, px, sz⟩ := liq
  rcases px with _ | p <;> rcases sz with _ | s <;> simp

/-- Claim C5, witness: the spec scenario px = 30000, sz = 0.1 against
threshold 2500 (notional 3000 strictly above it). -/
theorem C5_market_notional_witness :
    (⟨some "market", some 30000, some (1/10)⟩ : LiqEvent).method = some "market" ∧
    ((should_alert 2500 ⟨some "market", some 30000, some (1/10)⟩).1 = true ↔
      ∃ p s, (⟨some "market", some 30000, some (1/10)⟩ : LiqEvent).px = some p ∧
        (⟨some "market", some 30000, some (1/10)⟩ : LiqEvent).sz = some s ∧
        p * s > 2500) :=
  ⟨rfl, (C5_market_notional 2500 ⟨some "market", some 30000, some (1/10)⟩ rfl).1⟩

/-- Dedup key of the stale pipeline: `record.get("block_number", "unknown")`;
`none` stands for the shared fallback value "unknown" used whenever the
record has no block_number field. -/
abbrev BlockKey := Option ℕ

/-- One collected (symbol, parsed last-update-time) pair; the second
component is the result of `parse_iso_ts` on the timestamp string (`none` =
the parse raised and the pair is skipped), with instants embedded as
rational seconds. -/
abbrev StaleUp := String × Option ℚ

/-- Stale-oracle record as consumed by `check_record`
(`stale_oracle_alerts.py` lines 81-115): the parsed block time (`none` =
missing or empty), the optional block_number field, and the batch of
(symbol, last-update-time) pairs collected by `collect_last_update_times`. -/
structure StaleRecord where
  block_time : Option ℚ
  block_number : BlockKey
  ups : List StaleUp

/-- Computable absolute value on ℚ, embedding Python `abs`. -/
def ratAbs (q : ℚ) : ℚ := if q < 0 then -q else q

theorem ratAbs_eq_abs (q : ℚ) : ratAbs q = |q| := by
  rw [ratAbs]
  split
  · exact (abs_of_neg (by assumption)).symm
  · exact (abs_of_nonneg (le_of_not_lt (by assumption))).symm

/-- Offender computation of `check_record`: pairs whose absolute skew from
the block time strictly exceeds the threshold, recorded as
(symbol, skew seconds, last-update time); parse failures are skipped. -/
def staleOffenders (thr bt : ℚ) (ups : List StaleUp) : List (String × ℚ × ℚ) :=
  ups.filterMap fun u =>
    match u.2 with
    | none => none
    | some lut => if ratAbs (bt - lut) > thr then some (u.1, ratAbs (bt - lut), lut) else none

/-- Stable descending sort by skew, as in
`offenders.sort(key=lambda x: x[1], reverse=True)`. -/
def sortOffenders (l : List (String × ℚ × ℚ)) : List (String × ℚ × ℚ) :=
  List.insertionSort (fun a b => b.2.1 ≤ a.2.1) l

/-- Observable outcome of one `check_record` call: whether the alert send
was invoked, the offender rows enumerated in the payload, the optional
"... and N more" remainder count, and the dedup set afterwards. -/
structure StaleStep where
  fired : Bool
  listed : List (String × ℚ × ℚ)
  more : Option ℕ
  alerted : List BlockKey
deriving DecidableEq

/-- Embedding of `check_record`: skip records without a block time, records
whose dedup key is already resident, empty batches and batches with no
offender; otherwise send one alert enumerating the offenders sorted by
descending skew capped to 20 with a remainder suffix, and remember the key
iff the send succeeded (`sendOk`). -/
def check_record (thr : ℚ) (st : List BlockKey) (r : StaleRecord)
    (sendOk : Bool) : StaleStep :=
  match r.block_time with
  | none => ⟨false, [], none, st⟩
  | some bt =>
    if r.block_number ∈ st then ⟨false, [], none, st⟩
    else if r.ups.isEmpty then ⟨false, [], none, st⟩
    else
      let offs := staleOffenders thr bt r.ups
      if offs.isEmpty then ⟨false, [], none, st⟩
      else
        ⟨true, (sortOffenders offs).take 20,
          if 20 < offs.length then some (offs.length - 20) else none,
          if sendOk then r.block_number :: st else st⟩

/-- Trace semantics of the stale pipeline: process records in order,
threading the dedup set, and log (send invoked, dedup key) per record. -/
def staleRun (thr : ℚ) : List BlockKey → List (StaleRecord × Bool) →
    List (Bool × BlockKey)
  | _, [] => []
  | st, (r, ok) :: rest =>
    (((check_record thr st r ok).fired), r.block_number) ::
      staleRun thr (check_record thr st r ok).alerted rest

/-- Number of alert sends for a given dedup key in a trace log. -/
def firesFor (k : BlockKey) (log : List (Bool × BlockKey)) : ℕ :=
  log.countP fun e => e.1 && decide (e.2 = k)

theorem check_record_bt_none {thr : ℚ} {st : List BlockKey} {r : StaleRecord}
    {ok : Bool} (h : r.block_time = none) :
    check_record thr st r ok = ⟨false, [], none, st⟩ := by
  unfold check_record
  rw [h]

theorem check_record_of_mem {thr : ℚ} {st : List BlockKey} {r : StaleRecord}
    {ok : Bool} {bt : ℚ} (hbt : r.block_time = some bt)
    (h : r.block_number ∈ st) :
    check_record thr st r ok = ⟨false, [], none, st⟩ := by
  unfold check_record
  rw [hbt]
  exact if_pos h

theorem check_record_ups_nil {thr : ℚ} {st : List BlockKey} {r : StaleRecord}
    {ok : Bool} {bt : ℚ} (hbt : r.block_time = some bt)
    (h1 : r.block_number ∉ st) (h2 : r.ups.isEmpty = true) :
    check_record thr st r ok = ⟨false, [], none, st⟩ := by
  unfold check_record
  rw [hbt]
  exact (if_neg h1).trans (if_pos h2)

theorem check_record_no_off {thr : ℚ} {st : List BlockKey} {r : StaleRecord}
    {ok : Bool} {bt : ℚ} (hbt : r.block_time = some bt)
    (h1 : r.block_number ∉ st) (h2 : ¬r.ups.isEmpty = true)
    (h3 : (staleOffenders thr bt r.ups).isEmpty = true) :
    check_record thr st r ok = ⟨false, [], none, st⟩ := by
  unfold check_record
  rw [hbt]
  exact ((if_neg h1).trans (if_neg h2)).trans (if_pos h3)

theorem check_record_fire {thr : ℚ} {st : List BlockKey} {r : StaleRecord}
    {ok : Bool} {bt : ℚ} (hbt : r.block_time = some bt)
    (h1 : r.block_number ∉ st) (h2 : ¬r.ups.isEmpty = true)
    (h3 : ¬(staleOffenders thr bt r.ups).isEmpty = true) :
    check_record thr st r ok =
      ⟨true, (sortOffenders (staleOffenders thr bt r.ups)).take 20,
        if 20 < (staleOffenders thr bt r.ups).length
          then some ((staleOffenders thr bt r.ups).length - 20) else none,
        if ok then r.block_number :: st else st⟩ := by
  unfold check_record
  rw [hbt]
  exact ((if_neg h1).trans (if_neg h2)).trans (if_neg h3)

theorem check_record_alerted_mono {thr : ℚ} {st : List BlockKey}
    {r : StaleRecord} {ok : Bool} {x : BlockKey} (h : x ∈ st) :
    x ∈ (check_record thr st r ok).alerted := by
  cases hbt : r.block_time with
  | none => rw [check_record_bt_none hbt]; exact h
  | some bt =>
    by_cases h1 : r.block_number ∈ st
    · rw [check_record_of_mem hbt h1]; exact h
    · by_cases h2 : r.ups.isEmpty
      · rw [check_record_ups_nil hbt h1 h2]; exact h
      · by_cases h3 : (staleOffenders thr bt r.ups).isEmpty
        · rw [check_record_no_off hbt h1 h2 h3]; exact h
        · rw [check_record_fire hbt h1 h2 h3]
          cases ok
          · exact h
          · exact List.mem_cons_of_mem _ h

theorem check_record_not_fired_of_mem {thr : ℚ} {st : List BlockKey}
    {r : StaleRecord} {ok : Bool} (h : r.block_number ∈ st) :
    (check_record thr st r ok).fired = false := by
  cases hbt : r.block_time with
  | none => rw [check_record_bt_none hbt]
  | some bt => rw [check_record_of_mem hbt h]

theorem check_record_mem_alerted_of_fired {thr : ℚ} {st : List BlockKey}
    {r : StaleRecord} (h : (check_record thr st r true).fired = true) :
    r.block_number ∈ (check_record thr st r true).alerted := by
  cases hbt : r.block_time with
  | none => rw [check_record_bt_none hbt] at h; simp at h
  | some bt =>
    by_cases h1 : r.block_number ∈ st
    · rw [check_record_of_mem hbt h1] at h; simp at h
    · by_cases h2 : r.ups.isEmpty
      · rw [check_record_ups_nil hbt h1 h2] at h; simp at h
      · by_cases h3 : (staleOffenders thr bt r.ups).isEmpty
        · rw [check_record_no_off hbt h1 h2 h3] at h; simp at h
        · rw [check_record_fire hbt h1 h2 h3]
          exact List.mem_cons_self _ _

theorem staleRun_suppressed (thr : ℚ) (k : BlockKey) :
    ∀ (rs : List (StaleRecord × Bool)) (st : List BlockKey), k ∈ st →
      ∀ e ∈ staleRun thr st rs, e.2 = k → e.1 = false := by
  intro rs
  induction rs with
  | nil => intro st _ e he; simp [staleRun] at he
  | cons p rest ih =>
    intro st hk e he hek
    obtain ⟨r, ok⟩ := p
    rw [staleRun] at he
    rcases List.mem_cons.mp he with h | h
    · subst h
      have hek2 : r.block_number = k := hek
      exact check_record_not_fired_of_mem (hek2 ▸ hk)
    · exact ih _ (check_record_alerted_mono hk) e h hek

theorem firesFor_eq_zero {thr : ℚ} {k : BlockKey} {rs : List (StaleRecord × Bool)}
    {st : List BlockKey} (hk : k ∈ st) :
    firesFor k (staleRun thr st rs) = 0 := by
  rw [firesFor, List.countP_eq_zero]
  intro e he
  by_cases hek : e.2 = k
  · simp [staleRun_suppressed thr k rs st hk e he hek]
  · simp [hek]

/-- Claim C2: in the stale category (the alert category using identity
dedup), once an alert for a dedup key has been successfully dispatched the
key becomes resident in the gate, and in any subsequent trace no record
carrying that key triggers another alert; the gate never evicts, so the key
stays resident throughout. -/
theorem C2_identity_dedup (thr : ℚ) (st : List BlockKey) (r : StaleRecord)
    (rest : List (StaleRecord × Bool))
    (hfired : (check_record thr st r true).fired = true) :
    r.block_number ∈ (check_record thr st r true).alerted ∧
    firesFor r.block_number
      (staleRun thr (check_record thr st r true).alerted rest) = 0 :=
  ⟨check_record_mem_alerted_of_fired hfired,
    firesFor_eq_zero (check_record_mem_alerted_of_fired hfired)⟩

/-- Claim C2, witness: block 5 alerts once with a successful send, and
re-processing the identical record afterwards does not alert again. -/
theorem C2_identity_dedup_witness :
    (check_record 30 [] ⟨some 0, some 5, [("A", some 100)]⟩ true).fired = true ∧
    ((⟨some 0, some 5, [("A", some 100)]⟩ : StaleRecord).block_number ∈
        (check_record 30 [] ⟨some 0, some 5, [("A", some 100)]⟩ true).alerted ∧
      firesFor (⟨some 0, some 5, [("A", some 100)]⟩ : StaleRecord).block_number
        (staleRun 30
          (check_record 30 [] ⟨some 0, some 5, [("A", some 100)]⟩ true).alerted
          [(⟨some 0, some 5, [("A", some 100)]⟩, true)]) = 0) :=
  ⟨by with_unfolding_all decide,
    C2_identity_dedup 30 [] ⟨some 0, some 5, [("A", some 100)]⟩
      [(⟨some 0, some 5, [("A", some 100)]⟩, true)] (by with_unfolding_all decide)⟩

/-- Claim C10: a record lacking a block_number field is deduplicated under
the single shared fallback key; once one such record has alerted with a
successful send, every later record without a block_number is suppressed by
the gate regardless of its content. -/
theorem C10_unknown_key_shared (thr : ℚ) (st : List BlockKey)
    (r1 : StaleRecord) (rest : List (StaleRecord × Bool))
    (h1 : r1.block_number = none)
    (hfired : (check_record thr st r1 true).fired = true) :
    ∀ e ∈ staleRun thr (check_record thr st r1 true).alerted rest,
      e.2 = none → e.1 = false := by
  intro e he hek
  have hmem := check_record_mem_alerted_of_fired hfired
  rw [h1] at hmem
  exact staleRun_suppressed thr none rest _ hmem e he hek

/-- Claim C10, witness: after a successful alert for one record without a
block_number, a later record without a block_number and entirely different
content does not alert. -/
theorem C10_unknown_key_shared_witness :
    (⟨some 0, none, [("A", some 100)]⟩ : StaleRecord).block_number = none ∧
    (check_record 30 [] ⟨some 0, none, [("A", some 100)]⟩ true).fired = true ∧
    ∀ e ∈ staleRun 30
        (check_record 30 [] ⟨some 0, none, [("A", some 100)]⟩ true).alerted
        [(⟨some 99, none, [("ZZZ", some 54321)]⟩, true)],
      e.2 = none → e.1 = false :=
  ⟨rfl, by with_unfolding_all decide,
    C10_unknown_key_shared 30 [] ⟨some 0, none, [("A", some 100)]⟩
      [(⟨some 99, none, [("ZZZ", some 54321)]⟩, true)] rfl
      (by with_unfolding_all decide)⟩

theorem mem_staleOffenders {thr bt : ℚ} {ups : List StaleUp}
    {x : String × ℚ × ℚ} (h : x ∈ staleOffenders thr bt ups) :
    x.2.1 > thr ∧ x.2.1 = ratAbs (bt - x.2.2) := by
  rw [staleOffenders, List.mem_filterMap] at h
  obtain ⟨u, _, hf⟩ := h
  cases h2 : u.2 with
  | none => rw [h2] at hf; simp at hf
  | some lut =>
    by_cases hgt : ratAbs (bt - lut) > thr
    · have hx : x = (u.1, ratAbs (bt - lut), lut) := by
        have hf2 : some (u.1, ratAbs (bt - lut), lut) = some x := by
          rw [h2] at hf
          simpa [hgt] using hf
        exact (Option.some.inj hf2).symm
      subst hx
      exact ⟨hgt, rfl⟩
    · rw [h2] at hf
      simp [hgt] at hf

theorem staleOffenders_ne_nil_iff {thr bt : ℚ} {ups : List StaleUp} :
    staleOffenders thr bt ups ≠ [] ↔
      ∃ u ∈ ups, ∃ lut, u.2 = some lut ∧ ratAbs (bt - lut) > thr := by
  constructor
  · intro h
    rw [staleOffenders, Ne, List.filterMap_eq_nil_iff] at h
    push_neg at h
    obtain ⟨u, hu, hf⟩ := h
    refine ⟨u, hu, ?_⟩
    cases h2 : u.2 with
    | none => exact absurd (by simp [h2]) hf
    | some lut =>
      by_cases hgt : ratAbs (bt - lut) > thr
      · exact ⟨lut, rfl, hgt⟩
      · exact absurd (by simp [h2, hgt]) hf
  · rintro ⟨u, hu, lut, h2, hgt⟩ hnil
    rw [staleOffenders, List.filterMap_eq_nil_iff] at hnil
    have := hnil u hu
    simp [h2, hgt] at this

theorem sortOffenders_sorted (l : List (String × ℚ × ℚ)) :
    List.Pairwise (fun a b => b.2.1 ≤ a.2.1) (sortOffenders l) := by
  haveI ht : IsTotal (String × ℚ × ℚ) (fun a b => b.2.1 ≤ a.2.1) :=
    ⟨fun a b => le_total b.2.1 a.2.1⟩
  haveI htr : IsTrans (String × ℚ × ℚ) (fun a b => b.2.1 ≤ a.2.1) :=
    ⟨fun a b c h1 h2 => le_trans h2 h1⟩
  exact List.sorted_insertionSort _ l

theorem sortOffenders_length (l : List (String × ℚ × ℚ)) :
    (sortOffenders l).length = l.length :=
  (List.perm_insertionSort _ l).length_eq

theorem mem_of_mem_sortOffenders {l : List (String × ℚ × ℚ)}
    {x : String × ℚ × ℚ} (h : x ∈ sortOffenders l) : x ∈ l :=
  (List.perm_insertionSort _ l).mem_iff.mp h

/-- Claim C9: for a stale record with a parsed block time and a fresh dedup
key, the alert fires iff at least one collected (symbol, last-update-time)
pair has absolute skew from the block time strictly above the threshold;
the payload enumerates offender rows sorted by descending skew, at most 20
of them, carries a remainder count exactly when more than 20 offenders
exist (listed + remainder = all offenders), and every listed row is a
genuine offender with its skew. -/
theorem C9_stale_offenders (thr bt : ℚ) (st : List BlockKey) (r : StaleRecord)
    (ok : Bool) (hbt : r.block_time = some bt) (hfresh : r.block_number ∉ st) :
    ((check_record thr st r ok).fired = true ↔
      ∃ u ∈ r.ups, ∃ lut, u.2 = some lut ∧ ratAbs (bt - lut) > thr) ∧
    List.Pairwise (fun a b => b.2.1 ≤ a.2.1) (check_record thr st r ok).listed ∧
    (check_record thr st r ok).listed.length ≤ 20 ∧
    (check_record thr st r ok).listed.length +
      (check_record thr st r ok).more.getD 0 =
      (staleOffenders thr bt r.ups).length ∧
    ((check_record thr st r ok).more = none ↔
      (staleOffenders thr bt r.ups).length ≤ 20) ∧
    ∀ x ∈ (check_record thr st r ok).listed,
      x.2.1 > thr ∧ x.2.1 = ratAbs (bt - x.2.2) := by
  by_cases h2 : r.ups.isEmpty
  · have hn : r.ups = [] := List.isEmpty_iff.mp h2
    simp only [check_record_ups_nil hbt hfresh h2]
    refine ⟨?_, ?_, ?_, ?_, ?_, ?_⟩ <;> simp [hn, staleOffenders]
  · by_cases h3 : (staleOffenders thr bt r.ups).isEmpty
    · have hoff : staleOffenders thr bt r.ups = [] := List.isEmpty_iff.mp h3
      simp only [check_record_no_off hbt hfresh h2 h3]
      refine ⟨?_, ?_, ?_, ?_, ?_, ?_⟩
      · constructor
        · intro hh; exact absurd hh (by simp)
        · intro hex
          exact absurd (staleOffenders_ne_nil_iff.mpr hex) (by simp [hoff])
      · simp
      · simp
      · simp [hoff]
      · simp [hoff]
      · simp
    · have hne : staleOffenders thr bt r.ups ≠ [] := by
        simpa [List.isEmpty_iff] using h3
      simp only [check_record_fire hbt hfresh h2 h3]
      refine ⟨?_, ?_, ?_, ?_, ?_, ?_⟩
      · exact iff_of_true trivial (staleOffenders_ne_nil_iff.mp hne)
      · exact List.Pairwise.sublist (List.take_sublist _ _) (sortOffenders_sorted _)
      · exact List.length_take_le _ _
      · by_cases h20 : 20 < (staleOffenders thr bt r.ups).length
        · rw [if_pos h20]
          simp only [List.length_take, sortOffenders_length, Option.getD_some]
          omega
        · rw [if_neg h20]
          simp only [List.length_take, sortOffenders_length, Option.getD_none]
          omega
      · by_cases h20 : 20 < (staleOffenders thr bt r.ups).length
        · rw [if_pos h20]
          simp
          omega
        · rw [if_neg h20]
          simp
          omega
      · intro x hx
        exact mem_staleOffenders (mem_of_mem_sortOffenders (List.mem_of_mem_take hx))

/-- Claim C9, witness: block time 1000 with pairs at 940 (skew 60) and 990
(skew 10) against threshold 30 fires, exhibited through the iff. -/
theorem C9_stale_offenders_witness :
    (⟨some 1000, some 7, [("A", some 940), ("B", some 990)]⟩ :
      StaleRecord).block_time = some 1000 ∧
    (⟨some 1000, some 7, [("A", some 940), ("B", some 990)]⟩ :
      StaleRecord).block_number ∉ ([] : List BlockKey) ∧
    ((check_record 30 [] ⟨some 1000, some 7, [("A", some 940), ("B", some 990)]⟩
        true).fired = true ↔
      ∃ u ∈ (⟨some 1000, some 7, [("A", some 940), ("B", some 990)]⟩ :
          StaleRecord).ups,
        ∃ lut, u.2 = some lut ∧ ratAbs (1000 - lut) > 30) :=
  ⟨rfl, by decide,
    (C9_stale_offenders 30 1000 [] ⟨some 1000, some 7,
      [("A", some 940), ("B", some 990)]⟩ true rfl (by decide)).1⟩

/-- Synthetic stale record driving the dedup gate: block `k` at time 0 with
one market whose last update is 100 seconds away (an offender for any
threshold below 100). -/
def mkStaleRec (k : ℕ) : StaleRecord := ⟨some 0, some k, [("S", some 100)]⟩

/-- Insert a sequence of distinct block keys into the stale pipeline's
gate, every send succeeding. -/
def staleInsertRun (thr : ℚ) : List ℕ → List BlockKey → List BlockKey
  | [], st => st
  | k :: ks, st =>
    staleInsertRun thr ks (check_record thr st (mkStaleRec k) true).alerted

theorem check_record_mkStaleRec {st : List BlockKey} {k : ℕ}
    (hk : some k ∉ st) :
    (check_record 1 st (mkStaleRec k) true).alerted = some k :: st ∧
    (check_record 1 st (mkStaleRec k) true).fired = true := by
  have hbt : (mkStaleRec k).block_time = some 0 := rfl
  have hups : ¬(mkStaleRec k).ups.isEmpty = true := by
    show ¬([("S", (some 100 : Option ℚ))].isEmpty) = true
    decide
  have hoffne : ¬(staleOffenders 1 0 (mkStaleRec k).ups).isEmpty = true := by
    show ¬(staleOffenders 1 0 [("S", (some 100 : Option ℚ))]).isEmpty = true
    with_unfolding_all decide
  constructor
  · rw [check_record_fire hbt hk hups hoffne]
    rfl
  · rw [check_record_fire hbt hk hups hoffne]

theorem mem_staleInsertRun :
    ∀ (ks : List ℕ) (st : List BlockKey) (x : BlockKey), x ∈ st →
      x ∈ staleInsertRun 1 ks st := by
  intro ks
  induction ks with
  | nil => intro st x h; exact h
  | cons k ks ih =>
    intro st x h
    rw [staleInsertRun]
    exact ih _ _ (check_record_alerted_mono h)

theorem inserted_mem_staleInsertRun :
    ∀ (ks : List ℕ) (st : List BlockKey) (k : ℕ), k ∈ ks →
      some k ∈ staleInsertRun 1 ks st := by
  intro ks
  induction ks with
  | nil => intro st k h; simp at h
  | cons k2 ks ih =>
    intro st k h
    rcases List.mem_cons.mp h with h | h
    · subst h
      rw [staleInsertRun]
      apply mem_staleInsertRun
      by_cases hmem : some k ∈ st
      · exact check_record_alerted_mono hmem
      · rw [(check_record_mkStaleRec hmem).1]
        exact List.mem_cons_self _ _
    · rw [staleInsertRun]
      exact ih _ _ h

theorem staleInsertRun_length :
    ∀ (ks : List ℕ) (st : List BlockKey), ks.Nodup →
      (∀ k ∈ ks, some k ∉ st) →
      (staleInsertRun 1 ks st).length = ks.length + st.length := by
  intro ks
  induction ks with
  | nil => intro st _ _; simp [staleInsertRun]
  | cons k ks ih =>
    intro st hnd hdisj
    have hk : some k ∉ st := hdisj k (by simp)
    have hdisj2 : ∀ k2 ∈ ks, some k2 ∉ some k :: st := by
      intro k2 hk2 hmem
      rcases List.mem_cons.mp hmem with h | h
      · have hkk : k2 = k := by simpa using h
        subst hkk
        exact (List.nodup_cons.mp hnd).1 hk2
      · exact hdisj k2 (by simp [hk2]) h
    rw [staleInsertRun, (check_record_mkStaleRec hk).1,
      ih _ (List.Nodup.of_cons hnd) hdisj2]
    simp [List.length_cons]
    omega

set_option maxRecDepth 8192 in
/-- Claim C3, code-bug evidence: the capacity-1000 order deque of the stale
pipeline (and likewise the capacity-20000 one of the liquidation pipeline)
is allocated but never populated, so nothing is ever evicted.  After 1001
successfully dispatched alerts with distinct block numbers the resident set
holds all 1001 keys, strictly exceeding the declared capacity, and the
oldest key re-occurring still does not alert again. -/
theorem C3_no_eviction :
    (staleInsertRun 1 (List.range 1001) []).length = 1001 ∧
    1000 < (staleInsertRun 1 (List.range 1001) []).length ∧
    (check_record 1 (staleInsertRun 1 (List.range 1001) [])
      (mkStaleRec 0) true).fired = false := by
  have hlen : (staleInsertRun 1 (List.range 1001) []).length = 1001 := by
    have h := staleInsertRun_length (List.range 1001) [] (List.nodup_range _)
      (by simp)
    simpa using h
  refine ⟨hlen, by omega, ?_⟩
  apply check_record_not_fired_of_mem
  exact inserted_mem_staleInsertRun _ _ 0 (by simp)
